import Mathlib

/-!
# Verification of the `dstkit.geohash` coordinate codec

Shallow embedding of `src/dstkit/geohash.py` (the geohash codec) in Lean 4.
Python floats are modelled as rationals `ℚ`: every finite float64 value is a
rational, and all midpoint arithmetic performed by the codec on the range
bounds is exact dyadic arithmetic at the depths reachable with 1–12 character
geohashes, so the rational model computes exactly the values float64 computes.
Python exceptions (`ValueError`) are modelled by `Option.none`: `encode` can
only fail on its precision check, and `get_bounds` (with its callers `decode`,
`get_polygon`, `get_geojson`) can only fail on an invalid character, mirroring
the single `raise` statement of each source function.
-/

set_option autoImplicit false

namespace Dstkit

/-- `geohash_base32 = "0123456789bcdefghjkmnpqrstuvwxyz"` (geohash.py line 3),
viewed as its list of characters. -/
def geohash_base32 : List Char := "0123456789bcdefghjkmnpqrstuvwxyz".toList

/-- A latitude/longitude pair, as in the dicts returned by `get_bounds`. -/
structure Coordinate where
  lat : ℚ
  lon : ℚ
deriving DecidableEq

/-- The `{'sw': …, 'ne': …}` dict returned by `get_bounds`. -/
structure BBox where
  sw : Coordinate
  ne : Coordinate
deriving DecidableEq

/-- The four range variables (`latitude_min`, `latitude_max`, `longitude_min`,
`longitude_max`) threaded through the bisection loops of both `get_bounds`
and `encode`. -/
structure Box where
  latMin : ℚ
  latMax : ℚ
  lonMin : ℚ
  lonMax : ℚ
deriving DecidableEq

/-- The initial ranges `[-90, 90] × [-180, 180]` set up by both loops. -/
def initBox : Box := ⟨-90, 90, -180, 180⟩

/-- Python's `s.find(c)` for a string `s`: the first index of `c`, or `-1`
when `c` does not occur (used on `geohash_base32` at geohash.py line 73). -/
def strFind : List Char → Char → Int
  | [], _ => -1
  | x :: s, c =>
    if x = c then 0
    else if strFind s c = -1 then -1 else strFind s c + 1

/-- The five bits of a base-32 index, most significant first:
`for n in np.arange(5)[::-1]: bitN = index >> n & 1` (geohash.py lines 77–79),
with bit value 1 rendered as `true`. -/
def indexBits (index : Nat) : List Bool :=
  [4, 3, 2, 1, 0].map (fun n => (index >>> n) &&& 1 == 1)

/-- One bisection step of the `get_bounds` inner loop (geohash.py lines
80–91): in longitude mode (`even_bit`) a 1-bit raises `longitude_min` to the
midpoint and a 0-bit lowers `longitude_max` to it; latitude mode is symmetric. -/
def boundsStep (even_bit : Bool) (b : Box) (bitN : Bool) : Box :=
  if even_bit then
    let longitude_midpoint := (b.lonMin + b.lonMax) / 2
    if bitN then { b with lonMin := longitude_midpoint }
    else { b with lonMax := longitude_midpoint }
  else
    let latitude_midpoint := (b.latMin + b.latMax) / 2
    if bitN then { b with latMin := latitude_midpoint }
    else { b with latMax := latitude_midpoint }

/-- The `get_bounds` inner loop over the five bits of one character
(geohash.py lines 78–92), threading the box and the `even_bit` flag, which
toggles after every single bit. -/
def boundsBits : Box × Bool → List Bool → Box × Bool
  | st, [] => st
  | (b, e), bitN :: rest => boundsBits (boundsStep e b bitN, !e) rest

/-- The `get_bounds` outer loop over the characters (geohash.py lines 72–92):
look up each character in the alphabet, fail on `-1`, otherwise process its
five bits. -/
def boundsLoop : Box × Bool → List Char → Option (Box × Bool)
  | st, [] => some st
  | st, character :: rest =>
    let index := strFind geohash_base32 character
    if index = -1 then none
    else boundsLoop (boundsBits st (indexBits index.toNat)) rest

/-- `get_bounds(geohash)` (geohash.py lines 50–94): lowercase the input, run
the bisection loop from the full globe with `even_bit = True`, and package the
final ranges as southwest/northeast corners. -/
def get_bounds (geohash : List Char) : Option BBox :=
  match boundsLoop (initBox, true) (geohash.map Char.toLower) with
  | none => none
  | some (b, _) => some ⟨⟨b.latMin, b.lonMin⟩, ⟨b.latMax, b.lonMax⟩⟩

/-- `decode(geohash)` (geohash.py lines 97–114): the `np.mean` of the two
corners of `get_bounds` on each axis, returned as `(latitude, longitude)`. -/
def decode (geohash : List Char) : Option (ℚ × ℚ) :=
  match get_bounds geohash with
  | none => none
  | some bounds =>
    some ((bounds.sw.lat + bounds.ne.lat) / 2, (bounds.sw.lon + bounds.ne.lon) / 2)

/-- `get_polygon(geohash)` (geohash.py lines 27–47): the five `[lon, lat]`
vertices SW, NW, NE, SE, SW of the bounding box, first equal to last. -/
def get_polygon (geohash : List Char) : Option (List (ℚ × ℚ)) :=
  match get_bounds geohash with
  | none => none
  | some bounds =>
    some [(bounds.sw.lon, bounds.sw.lat), (bounds.sw.lon, bounds.ne.lat),
          (bounds.ne.lon, bounds.ne.lat), (bounds.ne.lon, bounds.sw.lat),
          (bounds.sw.lon, bounds.sw.lat)]

/-- The GeoJSON feature dict built by `get_geojson` (geohash.py lines 17–22):
a `Feature` whose properties are a copy of the caller's and whose geometry is
a polygon with a single ring. -/
structure Feature where
  properties : List (String × String)
  coordinates : List (List (ℚ × ℚ))
deriving DecidableEq

/-- `get_geojson(geohash, properties)` (geohash.py lines 5–24): lowercase the
input, copy the properties, and append `get_polygon(geohash)` as the single
ring of the geometry. -/
def get_geojson (geohash : List Char) (properties : List (String × String)) :
    Option Feature :=
  let g := geohash.map Char.toLower
  match get_polygon g with
  | none => none
  | some ring => some ⟨properties.map (fun kv => kv), [ring]⟩

/-- One bisection step of the `encode` loop body (geohash.py lines 160–175),
returning the emitted bit together with the narrowed box: on the active axis,
coordinate `≥` midpoint emits bit 1 and raises the lower bound, otherwise
bit 0 and the upper bound drops to the midpoint. -/
def encodeBit (latitude longitude : ℚ) (even_bit : Bool) (b : Box) : Bool × Box :=
  if even_bit then
    let lon_mid := (b.lonMin + b.lonMax) / 2
    if longitude ≥ lon_mid then (true, { b with lonMin := lon_mid })
    else (false, { b with lonMax := lon_mid })
  else
    let lat_mid := (b.latMin + b.latMax) / 2
    if latitude ≥ lat_mid then (true, { b with latMin := lat_mid })
    else (false, { b with latMax := lat_mid })

/-- `n` iterations of the `encode` while-loop body (geohash.py lines 159–177)
on the state `(index, even_bit, box)`: each step accumulates the emitted bit
as `index = index * 2 + bit` and toggles `even_bit`. -/
def encodeSteps (latitude longitude : ℚ) : Nat → Nat × Bool × Box → Nat × Bool × Box
  | 0, st => st
  | n + 1, (index, even_bit, b) =>
    let s := encodeBit latitude longitude even_bit b
    encodeSteps latitude longitude n
      (index * 2 + (if s.1 then 1 else 0), !even_bit, s.2)

/-- The character-producing structure of the `encode` while-loop (geohash.py
lines 159–183): the `bit` counter runs 0–4 and a character is emitted exactly
every five iterations (`geohash += geohash_base32[index]`), resetting `index`
to 0, so a run to `precision` characters is `precision` groups of five steps. -/
def encodeChars (latitude longitude : ℚ) : Nat → Bool → Box → List Char × Box
  | 0, _, b => ([], b)
  | n + 1, even_bit, b =>
    let s := encodeSteps latitude longitude 5 (0, even_bit, b)
    let rest := encodeChars latitude longitude n s.2.1 s.2.2
    (geohash_base32.getD s.1 ' ' :: rest.1, rest.2)

/-- `encode(latitude, longitude, precision)` (geohash.py lines 117–185):
fail when `precision < 1 or precision > 12`, otherwise run the bisection loop
from the full globe with `even_bit = True` until `precision` characters have
been emitted. -/
def encode (latitude longitude : ℚ) (precision : Int) : Option (List Char) :=
  if precision < 1 ∨ precision > 12 then none
  else some (encodeChars latitude longitude precision.toNat true initBox).1

/-! ### Auxiliary definitions used only by the verification -/

/-- The bit trace of `n` iterations of the `encode` loop body: the list of
emitted bits together with the final box, ignoring the `index` accumulator. -/
def encodeBits (latitude longitude : ℚ) : Nat → Bool → Box → List Bool × Box
  | 0, _, b => ([], b)
  | n + 1, even_bit, b =>
    let s := encodeBit latitude longitude even_bit b
    let rest := encodeBits latitude longitude n (!even_bit) s.2
    (s.1 :: rest.1, rest.2)

/-- Folding a bit list into an accumulator by `a * 2 + bit`, as the `index`
accumulator of `encode` does. -/
def bitsFoldI (i : Nat) (l : List Bool) : Nat :=
  l.foldl (fun a bitN => a * 2 + (if bitN then 1 else 0)) i

/-- The point `(lat, lon)` lies inside the box, edges included. -/
def pointIn (lat lon : ℚ) (b : Box) : Prop :=
  b.latMin ≤ lat ∧ lat ≤ b.latMax ∧ b.lonMin ≤ lon ∧ lon ≤ b.lonMax

/-- The two ranges of a box are weakly ordered. -/
def boxLe (b : Box) : Prop := b.latMin ≤ b.latMax ∧ b.lonMin ≤ b.lonMax

/-- The two ranges of a box are strictly ordered (nonempty interior). -/
def boxLt (b : Box) : Prop := b.latMin < b.latMax ∧ b.lonMin < b.lonMax

/-- The full bounding-box invariant: ordered ranges lying inside the globe
`[-90, 90] × [-180, 180]`. -/
def boxInv (b : Box) : Prop :=
  -90 ≤ b.latMin ∧ b.latMin ≤ b.latMax ∧ b.latMax ≤ 90 ∧
  -180 ≤ b.lonMin ∧ b.lonMin ≤ b.lonMax ∧ b.lonMax ≤ 180

/-- `inner` is contained in `outer` (edges included) on both axes. -/
def subBox (inner outer : Box) : Prop :=
  outer.latMin ≤ inner.latMin ∧ inner.latMax ≤ outer.latMax ∧
  outer.lonMin ≤ inner.lonMin ∧ inner.lonMax ≤ outer.lonMax

/-- Longitude width of a box. -/
def lonW (b : Box) : ℚ := b.lonMax - b.lonMin

/-- Latitude width of a box. -/
def latW (b : Box) : ℚ := b.latMax - b.latMin

/-! ### Character and alphabet lemmas -/

theorem toNat_ofNat_valid (m : Nat) (h1 : m < 55296) : (Char.ofNat m).toNat = m := by
  have hv : Char.isValidCharNat m := Or.inl h1
  rw [Char.ofNat, dif_pos hv]
  simp [Char.ofNatAux, Char.toNat, UInt32.ofNat', UInt32.toNat]

theorem toLower_idem (c : Char) : c.toLower.toLower = c.toLower := by
  by_cases h : c.toNat ≥ 65 ∧ c.toNat ≤ 90
  · have h32 : (Char.ofNat (c.toNat + 32)).toNat = c.toNat + 32 :=
      toNat_ofNat_valid _ (by omega)
    simp only [Char.toLower, if_pos h, h32]
    rw [if_neg (by omega)]
  · simp only [Char.toLower, if_neg h]

theorem map_toLower_idem (s : List Char) :
    (s.map Char.toLower).map Char.toLower = s.map Char.toLower := by
  simp only [List.map_map]
  exact List.map_congr_left (fun c _ => toLower_idem c)

theorem strFind_cases (s : List Char) (c : Char) :
    strFind s c = -1 ∨ 0 ≤ strFind s c := by
  induction s with
  | nil => exact Or.inl rfl
  | cons x s ih =>
    by_cases hx : x = c
    · simp [strFind, hx]
    · by_cases hr : strFind s c = -1
      · simp [strFind, hx, hr]
      · rcases ih with h | h
        · exact absurd h hr
        · right
          simp only [strFind, if_neg hx, if_neg hr]
          omega

theorem strFind_eq_neg_one {s : List Char} {c : Char} :
    strFind s c = -1 ↔ c ∉ s := by
  induction s with
  | nil => simp [strFind]
  | cons x s ih =>
    by_cases hx : x = c
    · subst hx
      simp [strFind]
    · by_cases hr : strFind s c = -1
      · simp [strFind, hx, hr, Ne.symm hx, ih.mp hr]
      · have hpos : 0 ≤ strFind s c := (strFind_cases s c).resolve_left hr
        have hmem : c ∈ s := by
          by_contra hcs
          exact hr (ih.mpr hcs)
        simp only [strFind, if_neg hx, if_neg hr, List.mem_cons]
        constructor
        · intro h
          omega
        · intro h
          exact absurd (Or.inr hmem) h

theorem strFind_getD :
    ∀ i : Fin 32,
      strFind geohash_base32 (geohash_base32.getD (i : Nat) ' ') = ((i : Nat) : Int) := by
  decide

theorem getD_mem_alphabet :
    ∀ i : Fin 32, geohash_base32.getD (i : Nat) ' ' ∈ geohash_base32 := by
  decide

theorem alphabet_toLower : ∀ c ∈ geohash_base32, c.toLower = c := by
  decide

/-! ### Relating the encode loop to its bit trace -/

theorem boundsStep_encodeBit (lat lon : ℚ) (e : Bool) (b : Box) :
    boundsStep e b (encodeBit lat lon e b).1 = (encodeBit lat lon e b).2 := by
  cases e
  · by_cases h : (b.latMin + b.latMax) / 2 ≤ lat <;>
      simp [encodeBit, boundsStep, h]
  · by_cases h : (b.lonMin + b.lonMax) / 2 ≤ lon <;>
      simp [encodeBit, boundsStep, h]

theorem encodeSteps_spec (lat lon : ℚ) :
    ∀ (n : Nat) (i : Nat) (e : Bool) (b : Box),
      encodeSteps lat lon n (i, e, b) =
        (bitsFoldI i (encodeBits lat lon n e b).1,
         (if n % 2 = 0 then e else !e),
         (encodeBits lat lon n e b).2) := by
  intro n
  induction n with
  | zero =>
    intro i e b
    simp [encodeSteps, encodeBits, bitsFoldI]
  | succ n ih =>
    intro i e b
    simp only [encodeSteps, encodeBits]
    rw [ih]
    have hpar : (if n % 2 = 0 then !e else e) = (if (n + 1) % 2 = 0 then e else !e) := by
      rcases Nat.mod_two_eq_zero_or_one n with h | h <;>
        simp [h, Nat.add_mod]
    simp [bitsFoldI, hpar]

theorem boundsBits_encodeBits (lat lon : ℚ) :
    ∀ (n : Nat) (e : Bool) (b : Box),
      boundsBits (b, e) (encodeBits lat lon n e b).1 =
        ((encodeBits lat lon n e b).2, (if n % 2 = 0 then e else !e)) := by
  intro n
  induction n with
  | zero =>
    intro e b
    simp [encodeBits, boundsBits]
  | succ n ih =>
    intro e b
    simp only [encodeBits, boundsBits]
    rw [boundsStep_encodeBit, ih]
    have hpar : (if n % 2 = 0 then !e else !(!e)) = (if (n + 1) % 2 = 0 then e else !e) := by
      rcases Nat.mod_two_eq_zero_or_one n with h | h <;>
        simp [h, Nat.add_mod]
    rw [hpar]

theorem encodeBits_length (lat lon : ℚ) :
    ∀ (n : Nat) (e : Bool) (b : Box), (encodeBits lat lon n e b).1.length = n := by
  intro n
  induction n with
  | zero => intro e b; rfl
  | succ n ih =>
    intro e b
    simp [encodeBits, ih]

theorem exists_five {α : Type} (l : List α) (h : l.length = 5) :
    ∃ b0 b1 b2 b3 b4, l = [b0, b1, b2, b3, b4] := by
  rcases l with _ | ⟨b0, _ | ⟨b1, _ | ⟨b2, _ | ⟨b3, _ | ⟨b4, l⟩⟩⟩⟩⟩ <;> simp_all

theorem indexBits_bitsFoldI :
    ∀ b0 b1 b2 b3 b4 : Bool,
      indexBits (bitsFoldI 0 [b0, b1, b2, b3, b4]) = [b0, b1, b2, b3, b4] ∧
      bitsFoldI 0 [b0, b1, b2, b3, b4] < 32 := by
  decide

theorem indexBits_of_length_five {l : List Bool} (h : l.length = 5) :
    indexBits (bitsFoldI 0 l) = l ∧ bitsFoldI 0 l < 32 := by
  obtain ⟨b0, b1, b2, b3, b4, rfl⟩ := exists_five l h
  exact indexBits_bitsFoldI b0 b1 b2 b3 b4

/-! ### The encoded point stays inside the narrowed box -/

theorem encodeBit_pointIn (lat lon : ℚ) (e : Bool) (b : Box) (h : pointIn lat lon b) :
    pointIn lat lon (encodeBit lat lon e b).2 := by
  obtain ⟨h1, h2, h3, h4⟩ := h
  cases e <;> simp only [encodeBit] <;> split_ifs with hc <;>
    exact ⟨by dsimp only; linarith, by dsimp only; linarith,
           by dsimp only; linarith, by dsimp only; linarith⟩

theorem encodeBits_pointIn (lat lon : ℚ) :
    ∀ (n : Nat) (e : Bool) (b : Box), pointIn lat lon b →
      pointIn lat lon (encodeBits lat lon n e b).2 := by
  intro n
  induction n with
  | zero => intro e b h; exact h
  | succ n ih =>
    intro e b h
    exact ih (!e) _ (encodeBit_pointIn lat lon e b h)

/-! ### The character loop of `get_bounds` -/

theorem boundsLoop_append (l1 : List Char) :
    ∀ (l2 : List Char) (st : Box × Bool),
      boundsLoop st (l1 ++ l2) =
        (boundsLoop st l1).bind (fun st2 => boundsLoop st2 l2) := by
  induction l1 with
  | nil => intro l2 st; rfl
  | cons c l1 ih =>
    intro l2 st
    simp only [List.cons_append, boundsLoop]
    by_cases h : strFind geohash_base32 c = -1
    · simp [h]
    · simp [h, ih]

theorem boundsLoop_eq_none_iff :
    ∀ (l : List Char) (st : Box × Bool),
      boundsLoop st l = none ↔ ∃ c ∈ l, c ∉ geohash_base32 := by
  intro l
  induction l with
  | nil => intro st; simp [boundsLoop]
  | cons c l ih =>
    intro st
    by_cases h : strFind geohash_base32 c = -1
    · have hc : c ∉ geohash_base32 := strFind_eq_neg_one.mp h
      simp only [boundsLoop, if_pos h]
      constructor
      · intro _
        exact ⟨c, List.mem_cons_self c l, hc⟩
      · intro _
        trivial
    · have hmem : c ∈ geohash_base32 := by
        by_contra hc
        exact h (strFind_eq_neg_one.mpr hc)
      simp only [boundsLoop, if_neg h]
      rw [ih]
      constructor
      · rintro ⟨x, hx1, hx2⟩
        exact ⟨x, List.mem_cons_of_mem c hx1, hx2⟩
      · rintro ⟨x, hx1, hx2⟩
        rcases List.mem_cons.mp hx1 with rfl | hx1
        · exact absurd hmem hx2
        · exact ⟨x, hx1, hx2⟩

/-! ### The character loop of `encode` -/

theorem encodeChars_length (lat lon : ℚ) :
    ∀ (n : Nat) (e : Bool) (b : Box), (encodeChars lat lon n e b).1.length = n := by
  intro n
  induction n with
  | zero => intro e b; rfl
  | succ n ih =>
    intro e b
    simp [encodeChars, ih]

theorem encodeSteps_index_lt (lat lon : ℚ) (e : Bool) (b : Box) :
    (encodeSteps lat lon 5 (0, e, b)).1 < 32 := by
  rw [encodeSteps_spec]
  exact (indexBits_of_length_five (encodeBits_length lat lon 5 e b)).2

theorem encodeChars_mem (lat lon : ℚ) :
    ∀ (n : Nat) (e : Bool) (b : Box) (c : Char),
      c ∈ (encodeChars lat lon n e b).1 → c ∈ geohash_base32 := by
  intro n
  induction n with
  | zero => intro e b c hc; simp [encodeChars] at hc
  | succ n ih =>
    intro e b c hc
    simp only [encodeChars, List.mem_cons] at hc
    rcases hc with rfl | hc
    · exact getD_mem_alphabet ⟨_, encodeSteps_index_lt lat lon e b⟩
    · exact ih _ _ c hc

theorem encodeChars_replay (lat lon : ℚ) :
    ∀ (n : Nat) (e : Bool) (b : Box),
      ∃ e2, boundsLoop (b, e) (encodeChars lat lon n e b).1 =
        some ((encodeChars lat lon n e b).2, e2) := by
  intro n
  induction n with
  | zero => intro e b; exact ⟨e, rfl⟩
  | succ n ih =>
    intro e b
    have hspec := encodeSteps_spec lat lon 5 0 e b
    have hlen := encodeBits_length lat lon 5 e b
    obtain ⟨hbits, hlt⟩ := indexBits_of_length_five hlen
    have hidx : (encodeSteps lat lon 5 (0, e, b)).1 = bitsFoldI 0 (encodeBits lat lon 5 e b).1 := by
      rw [hspec]
    have hpar : (encodeSteps lat lon 5 (0, e, b)).2.1 = !e := by
      rw [hspec]
      simp
    have hbox : (encodeSteps lat lon 5 (0, e, b)).2.2 = (encodeBits lat lon 5 e b).2 := by
      rw [hspec]
    have hlt32 : (encodeSteps lat lon 5 (0, e, b)).1 < 32 := by
      rw [hidx]; exact hlt
    have hfind : strFind geohash_base32
        (geohash_base32.getD (encodeSteps lat lon 5 (0, e, b)).1 ' ') =
        ((encodeSteps lat lon 5 (0, e, b)).1 : Int) :=
      strFind_getD ⟨_, hlt32⟩
    simp only [encodeChars, boundsLoop, hfind]
    rw [if_neg (by omega)]
    have hbb : boundsBits (b, e) (indexBits (encodeSteps lat lon 5 (0, e, b)).1) =
        ((encodeBits lat lon 5 e b).2, !e) := by
      rw [hidx, hbits]
      exact boundsBits_encodeBits lat lon 5 e b
    rw [show ((encodeSteps lat lon 5 (0, e, b)).1 : Int).toNat =
        (encodeSteps lat lon 5 (0, e, b)).1 from Int.toNat_natCast _]
    rw [hbb]
    obtain ⟨e2, he2⟩ := ih (!e) (encodeBits lat lon 5 e b).2
    rw [hpar, hbox]
    exact ⟨e2, he2⟩

theorem encodeChars_pointIn (lat lon : ℚ) :
    ∀ (n : Nat) (e : Bool) (b : Box), pointIn lat lon b →
      pointIn lat lon (encodeChars lat lon n e b).2 := by
  intro n
  induction n with
  | zero => intro e b h; exact h
  | succ n ih =>
    intro e b h
    have hspec := encodeSteps_spec lat lon 5 0 e b
    have hin : pointIn lat lon (encodeSteps lat lon 5 (0, e, b)).2.2 := by
      rw [hspec]
      exact encodeBits_pointIn lat lon 5 e b h
    exact ih _ _ hin

/-! ### Box invariants under bisection -/

theorem boundsStep_boxLe (e : Bool) (b : Box) (bitN : Bool) (h : boxLe b) :
    boxLe (boundsStep e b bitN) := by
  obtain ⟨h1, h2⟩ := h
  cases e <;> cases bitN <;>
    simp only [boundsStep, boxLe, if_true, if_false, Bool.false_eq_true, ite_true, ite_false] <;>
    exact ⟨by linarith, by linarith⟩

theorem boundsStep_boxLt (e : Bool) (b : Box) (bitN : Bool) (h : boxLt b) :
    boxLt (boundsStep e b bitN) := by
  obtain ⟨h1, h2⟩ := h
  cases e <;> cases bitN <;>
    simp only [boundsStep, boxLt, if_true, if_false, Bool.false_eq_true, ite_true, ite_false] <;>
    exact ⟨by linarith, by linarith⟩

theorem boundsStep_boxInv (e : Bool) (b : Box) (bitN : Bool) (h : boxInv b) :
    boxInv (boundsStep e b bitN) := by
  obtain ⟨h1, h2, h3, h4, h5, h6⟩ := h
  cases e <;> cases bitN <;>
    simp only [boundsStep, boxInv, if_true, if_false, Bool.false_eq_true, ite_true, ite_false] <;>
    exact ⟨by linarith, by linarith, by linarith, by linarith, by linarith, by linarith⟩

theorem boundsStep_subBox (e : Bool) (b : Box) (bitN : Bool) (h : boxLe b) :
    subBox (boundsStep e b bitN) b := by
  obtain ⟨h1, h2⟩ := h
  cases e <;> cases bitN <;>
    simp only [boundsStep, subBox, if_true, if_false, Bool.false_eq_true, ite_true, ite_false] <;>
    exact ⟨by linarith, by linarith, by linarith, by linarith⟩

theorem subBox_trans {a b c : Box} (h1 : subBox a b) (h2 : subBox b c) : subBox a c := by
  obtain ⟨x1, x2, x3, x4⟩ := h1
  obtain ⟨y1, y2, y3, y4⟩ := h2
  exact ⟨by linarith, by linarith, by linarith, by linarith⟩

theorem boundsBits_boxLe :
    ∀ (bits : List Bool) (b : Box) (e : Bool), boxLe b → boxLe (boundsBits (b, e) bits).1 := by
  intro bits
  induction bits with
  | nil => intro b e h; exact h
  | cons x bits ih =>
    intro b e h
    exact ih _ _ (boundsStep_boxLe e b x h)

theorem boundsBits_boxLt :
    ∀ (bits : List Bool) (b : Box) (e : Bool), boxLt b → boxLt (boundsBits (b, e) bits).1 := by
  intro bits
  induction bits with
  | nil => intro b e h; exact h
  | cons x bits ih =>
    intro b e h
    exact ih _ _ (boundsStep_boxLt e b x h)

theorem boundsBits_boxInv :
    ∀ (bits : List Bool) (b : Box) (e : Bool), boxInv b → boxInv (boundsBits (b, e) bits).1 := by
  intro bits
  induction bits with
  | nil => intro b e h; exact h
  | cons x bits ih =>
    intro b e h
    exact ih _ _ (boundsStep_boxInv e b x h)

theorem boundsBits_subBox :
    ∀ (bits : List Bool) (b : Box) (e : Bool), boxLe b → subBox (boundsBits (b, e) bits).1 b := by
  intro bits
  induction bits with
  | nil =>
    intro b e h
    exact ⟨le_refl _, le_refl _, le_refl _, le_refl _⟩
  | cons x bits ih =>
    intro b e h
    exact subBox_trans (ih _ _ (boundsStep_boxLe e b x h)) (boundsStep_subBox e b x h)

theorem boundsLoop_boxInv :
    ∀ (l : List Char) (st st' : Box × Bool),
      boundsLoop st l = some st' → boxInv st.1 → boxInv st'.1 := by
  intro l
  induction l with
  | nil =>
    intro st st' hl h
    cases hl
    exact h
  | cons c l ih =>
    intro st st' hl h
    simp only [boundsLoop] at hl
    by_cases hc : strFind geohash_base32 c = -1
    · rw [if_pos hc] at hl
      cases hl
    · rw [if_neg hc] at hl
      have : boxInv (boundsBits st (indexBits (strFind geohash_base32 c).toNat)).1 :=
        boundsBits_boxInv _ st.1 st.2 h
      exact ih _ _ hl this

theorem boundsLoop_boxLt :
    ∀ (l : List Char) (st st' : Box × Bool),
      boundsLoop st l = some st' → boxLt st.1 → boxLt st'.1 := by
  intro l
  induction l with
  | nil =>
    intro st st' hl h
    cases hl
    exact h
  | cons c l ih =>
    intro st st' hl h
    simp only [boundsLoop] at hl
    by_cases hc : strFind geohash_base32 c = -1
    · rw [if_pos hc] at hl
      cases hl
    · rw [if_neg hc] at hl
      have : boxLt (boundsBits st (indexBits (strFind geohash_base32 c).toNat)).1 :=
        boundsBits_boxLt _ st.1 st.2 h
      exact ih _ _ hl this

theorem initBox_boxInv : boxInv initBox := by
  refine ⟨?_, ?_, ?_, ?_, ?_, ?_⟩ <;> norm_num [initBox]

theorem initBox_boxLt : boxLt initBox := by
  refine ⟨?_, ?_⟩ <;> norm_num [initBox]

theorem boxInv_boxLe {b : Box} (h : boxInv b) : boxLe b :=
  ⟨h.2.1, h.2.2.2.2.1⟩

/-! ### Widths halve on the active axis -/

theorem boundsStep_lonW (e : Bool) (b : Box) (bitN : Bool) :
    lonW (boundsStep e b bitN) = if e then lonW b / 2 else lonW b := by
  cases e <;> cases bitN <;>
    simp only [boundsStep, lonW, if_true, if_false, Bool.false_eq_true, ite_true, ite_false] <;>
    ring

theorem boundsStep_latW (e : Bool) (b : Box) (bitN : Bool) :
    latW (boundsStep e b bitN) = if e then latW b else latW b / 2 := by
  cases e <;> cases bitN <;>
    simp only [boundsStep, latW, if_true, if_false, Bool.false_eq_true, ite_true, ite_false] <;>
    ring

theorem boundsBits_five_widths (b : Box) (e : Bool) (l : List Bool) (h : l.length = 5) :
    lonW (boundsBits (b, e) l).1 = lonW b / (if e then 8 else 4) ∧
    latW (boundsBits (b, e) l).1 = latW b / (if e then 4 else 8) := by
  obtain ⟨x0, x1, x2, x3, x4, rfl⟩ := exists_five l h
  cases e <;>
    simp only [boundsBits, boundsStep_lonW, boundsStep_latW, Bool.not_true, Bool.not_false,
      if_true, if_false, Bool.false_eq_true, ite_true, ite_false] <;>
    constructor <;> ring

/-! ### Failure conditions of `get_bounds` and its callers -/

theorem get_bounds_none_iff (g : List Char) :
    get_bounds g = none ↔ ∃ c ∈ g.map Char.toLower, c ∉ geohash_base32 := by
  rw [← boundsLoop_eq_none_iff (g.map Char.toLower) (initBox, true)]
  unfold get_bounds
  rcases h : boundsLoop (initBox, true) (g.map Char.toLower) with _ | ⟨b, e⟩ <;> simp

theorem decode_none_iff (g : List Char) :
    decode g = none ↔ get_bounds g = none := by
  unfold decode
  rcases h : get_bounds g with _ | bb <;> simp

theorem get_polygon_none_iff (g : List Char) :
    get_polygon g = none ↔ get_bounds g = none := by
  unfold get_polygon
  rcases h : get_bounds g with _ | bb <;> simp

theorem get_bounds_map_toLower (g : List Char) :
    get_bounds (g.map Char.toLower) = get_bounds g := by
  unfold get_bounds
  rw [map_toLower_idem]

theorem get_geojson_none_iff (g : List Char) (properties : List (String × String)) :
    get_geojson g properties = none ↔ get_bounds g = none := by
  have key : get_polygon (g.map Char.toLower) = none ↔ get_bounds g = none := by
    rw [get_polygon_none_iff, get_bounds_map_toLower]
  rcases h : get_polygon (g.map Char.toLower) with _ | ring
  · simp [get_geojson, h, key.mp h]
  · have hb : ¬get_bounds g = none := by
      rw [← key, h]
      simp
    simp [get_geojson, h, hb]

/-! ### Concrete evaluations used by witnesses

`Rat` arithmetic does not reduce in the kernel (its normalization runs
through well-founded recursion), so these evaluations are established with
`norm_num` over the unfolded loops, with the character-level steps settled
by `decide`. -/

theorem get_bounds_zero_eval : get_bounds ['0'] = some ⟨⟨-90, -180⟩, ⟨-45, -135⟩⟩ := by
  unfold get_bounds
  rw [show (['0'] : List Char).map Char.toLower = ['0'] from by decide]
  rw [show boundsLoop (initBox, true) ['0'] =
      some (boundsBits (initBox, true) [false, false, false, false, false]) from by
    simp only [boundsLoop, show strFind geohash_base32 '0' = 0 from by decide]
    norm_num
    rw [show indexBits 0 = [false, false, false, false, false] from by decide]]
  norm_num [boundsBits, boundsStep, initBox]

theorem get_bounds_u_eval : get_bounds ['u'] = some ⟨⟨45, 0⟩, ⟨90, 45⟩⟩ := by
  unfold get_bounds
  rw [show (['u'] : List Char).map Char.toLower = ['u'] from by decide]
  rw [show boundsLoop (initBox, true) ['u'] =
      some (boundsBits (initBox, true) [true, true, false, true, false]) from by
    simp only [boundsLoop, show strFind geohash_base32 'u' = 26 from by decide]
    norm_num
    rw [show indexBits ((26 : Int)).toNat = [true, true, false, true, false] from by decide]]
  norm_num [boundsBits, boundsStep, initBox]

theorem get_bounds_z_eval : get_bounds ['z'] = some ⟨⟨45, 135⟩, ⟨90, 180⟩⟩ := by
  unfold get_bounds
  rw [show (['z'] : List Char).map Char.toLower = ['z'] from by decide]
  rw [show boundsLoop (initBox, true) ['z'] =
      some (boundsBits (initBox, true) [true, true, true, true, true]) from by
    simp only [boundsLoop, show strFind geohash_base32 'z' = 31 from by decide]
    norm_num
    rw [show indexBits ((31 : Int)).toNat = [true, true, true, true, true] from by decide]]
  norm_num [boundsBits, boundsStep, initBox]

theorem encode_far_north_east_five : encode 200 300 5 = some "zzzzz".toList := by
  norm_num [encode, encodeChars, encodeSteps, encodeBit, initBox,
    show geohash_base32[31]?.getD ' ' = 'z' from by decide]

theorem encode_far_north_east_one : encode 200 300 1 = some ['z'] := by
  norm_num [encode, encodeChars, encodeSteps, encodeBit, initBox,
    show geohash_base32[31]?.getD ' ' = 'z' from by decide]

/-! ### The claims -/

/-- C1: Round-trip containment — for every latitude in `[-90, 90]`, longitude
in `[-180, 180]` and integer precision `p` in `[1, 12]`, the bounding box
returned by `get_bounds (encode lat lon p)` contains the point `(lat, lon)`,
inclusive of the box edges. -/
theorem round_trip_containment (lat lon : ℚ) (p : Int)
    (hlat1 : -90 ≤ lat) (hlat2 : lat ≤ 90) (hlon1 : -180 ≤ lon) (hlon2 : lon ≤ 180)
    (hp1 : 1 ≤ p) (hp2 : p ≤ 12) :
    ∃ s bb, encode lat lon p = some s ∧ get_bounds s = some bb ∧
      bb.sw.lat ≤ lat ∧ lat ≤ bb.ne.lat ∧ bb.sw.lon ≤ lon ∧ lon ≤ bb.ne.lon := by
  have henc : encode lat lon p = some (encodeChars lat lon p.toNat true initBox).1 := by
    unfold encode
    rw [if_neg (by omega)]
  have hmem : ∀ c ∈ (encodeChars lat lon p.toNat true initBox).1, c ∈ geohash_base32 :=
    fun c hc => encodeChars_mem lat lon _ _ _ c hc
  have hlower : (encodeChars lat lon p.toNat true initBox).1.map Char.toLower =
      (encodeChars lat lon p.toNat true initBox).1 := by
    rw [List.map_congr_left (fun c hc => alphabet_toLower c (hmem c hc)), List.map_id']
  obtain ⟨e2, hloop⟩ := encodeChars_replay lat lon p.toNat true initBox
  have hpt : pointIn lat lon (encodeChars lat lon p.toNat true initBox).2 :=
    encodeChars_pointIn lat lon p.toNat true initBox ⟨hlat1, hlat2, hlon1, hlon2⟩
  have hgb : get_bounds (encodeChars lat lon p.toNat true initBox).1 =
      some ⟨⟨(encodeChars lat lon p.toNat true initBox).2.latMin,
             (encodeChars lat lon p.toNat true initBox).2.lonMin⟩,
            ⟨(encodeChars lat lon p.toNat true initBox).2.latMax,
             (encodeChars lat lon p.toNat true initBox).2.lonMax⟩⟩ := by
    unfold get_bounds
    rw [hlower, hloop]
  exact ⟨_, _, henc, hgb, hpt.1, hpt.2.1, hpt.2.2.1, hpt.2.2.2⟩

/-- Witness for C1 at `(lat, lon) = (0, 0)`, `p = 1`. -/
theorem round_trip_containment_witness :
    ∃ s bb, encode 0 0 1 = some s ∧ get_bounds s = some bb ∧
      bb.sw.lat ≤ 0 ∧ (0 : ℚ) ≤ bb.ne.lat ∧ bb.sw.lon ≤ 0 ∧ (0 : ℚ) ≤ bb.ne.lon :=
  round_trip_containment 0 0 1 (by norm_num) (by norm_num) (by norm_num) (by norm_num)
    (by norm_num) (by norm_num)

/-- C2: Tie-break consistency — whenever the coordinate on the active axis
equals the current midpoint of that axis, the `encode` loop body takes the
greater-or-equal branch (bit 1, lower bound raised to the midpoint), and this
is exactly what the `get_bounds` loop body does on a 1 bit; both loops iterate
these step functions, so the rule holds at every bisection step. -/
theorem tie_break_consistency (lat lon : ℚ) (e : Bool) (b : Box)
    (h : (if e then lon else lat) =
         (if e then (b.lonMin + b.lonMax) / 2 else (b.latMin + b.latMax) / 2)) :
    encodeBit lat lon e b = (true, boundsStep e b true) ∧
    boundsStep e b true =
      (if e then { b with lonMin := (b.lonMin + b.lonMax) / 2 }
       else { b with latMin := (b.latMin + b.latMax) / 2 }) := by
  cases e
  · simp only [if_false, Bool.false_eq_true, ite_false] at h ⊢
    constructor
    · simp [encodeBit, boundsStep, h]
    · simp [boundsStep]
  · simp only [if_true, ite_true] at h ⊢
    constructor
    · simp [encodeBit, boundsStep, h]
    · simp [boundsStep]

/-- Witness for C2 at `lon = 0` on the initial box, where the longitude
midpoint is `0`. -/
theorem tie_break_consistency_witness :
    encodeBit 0 0 true initBox = (true, boundsStep true initBox true) ∧
    boundsStep true initBox true =
      (if true then { initBox with lonMin := (initBox.lonMin + initBox.lonMax) / 2 }
       else { initBox with latMin := (initBox.latMin + initBox.latMax) / 2 }) :=
  tie_break_consistency 0 0 true initBox (by norm_num [initBox])

/-- C3: Monotonic precision refinement — for every geohash string `g` of
length below 12 accepted by `get_bounds` and every alphabet character `c`,
the box of `g ++ [c]` is contained in the box of `g` and differs from it
(a proper sub-box). -/
theorem monotonic_refinement (g : List Char) (c : Char) (bg : BBox)
    (_hlen : g.length < 12) (hg : get_bounds g = some bg) (hc : c ∈ geohash_base32) :
    ∃ bc, get_bounds (g ++ [c]) = some bc ∧
      bg.sw.lat ≤ bc.sw.lat ∧ bc.ne.lat ≤ bg.ne.lat ∧
      bg.sw.lon ≤ bc.sw.lon ∧ bc.ne.lon ≤ bg.ne.lon ∧ bc ≠ bg := by
  unfold get_bounds at hg
  rcases hloop : boundsLoop (initBox, true) (g.map Char.toLower) with _ | ⟨b, e⟩ <;>
    rw [hloop] at hg
  · cases hg
  cases hg
  have hstrict : boxLt b := boundsLoop_boxLt _ _ _ hloop initBox_boxLt
  have hle : boxLe b := ⟨le_of_lt hstrict.1, le_of_lt hstrict.2⟩
  have hmap : (g ++ [c]).map Char.toLower = g.map Char.toLower ++ [c] := by
    simp [alphabet_toLower c hc]
  have hcfind : ¬strFind geohash_base32 c = -1 := fun h => (strFind_eq_neg_one.mp h) hc
  have hbl : boundsLoop (b, e) [c] =
      some (boundsBits (b, e) (indexBits (strFind geohash_base32 c).toNat)) := by
    simp only [boundsLoop, if_neg hcfind]
  have hchild : get_bounds (g ++ [c]) =
      some ⟨⟨(boundsBits (b, e) (indexBits (strFind geohash_base32 c).toNat)).1.latMin,
             (boundsBits (b, e) (indexBits (strFind geohash_base32 c).toNat)).1.lonMin⟩,
            ⟨(boundsBits (b, e) (indexBits (strFind geohash_base32 c).toNat)).1.latMax,
             (boundsBits (b, e) (indexBits (strFind geohash_base32 c).toNat)).1.lonMax⟩⟩ := by
    unfold get_bounds
    rw [hmap, boundsLoop_append, hloop, Option.some_bind, hbl]
  have hsub : subBox (boundsBits (b, e) (indexBits (strFind geohash_base32 c).toNat)).1 b :=
    boundsBits_subBox _ b e hle
  have hw := boundsBits_five_widths b e (indexBits (strFind geohash_base32 c).toNat) rfl
  have hlonpos : 0 < lonW b := by
    have := hstrict.2
    simp only [lonW]
    linarith
  have hwlt : lonW (boundsBits (b, e) (indexBits (strFind geohash_base32 c).toNat)).1 <
      lonW b := by
    rw [hw.1]
    rcases e <;> simp <;> linarith
  refine ⟨_, hchild, hsub.1, hsub.2.1, hsub.2.2.1, hsub.2.2.2, ?_⟩
  intro hbbx
  have e1 : (boundsBits (b, e) (indexBits (strFind geohash_base32 c).toNat)).1.lonMax =
      b.lonMax := congrArg (fun x => x.ne.lon) hbbx
  have e2 : (boundsBits (b, e) (indexBits (strFind geohash_base32 c).toNat)).1.lonMin =
      b.lonMin := congrArg (fun x => x.sw.lon) hbbx
  have : lonW (boundsBits (b, e) (indexBits (strFind geohash_base32 c).toNat)).1 = lonW b := by
    simp only [lonW, e1, e2]
  exact absurd this (ne_of_lt hwlt)

/-- Witness for C3 at `g = "u"`, `c = '4'`. -/
theorem monotonic_refinement_witness :
    ∃ bc, get_bounds (['u'] ++ ['4']) = some bc ∧
      (45 : ℚ) ≤ bc.sw.lat ∧ bc.ne.lat ≤ 90 ∧
      (0 : ℚ) ≤ bc.sw.lon ∧ bc.ne.lon ≤ 45 ∧ bc ≠ ⟨⟨45, 0⟩, ⟨90, 45⟩⟩ :=
  monotonic_refinement ['u'] '4' ⟨⟨45, 0⟩, ⟨90, 45⟩⟩ (by norm_num) get_bounds_u_eval
    (by decide)

/-- C4: Encode error behavior — `encode` fails exactly when the integer
precision lies outside `[1, 12]`; latitude and longitude are never validated,
and any successful result is a string of exactly `precision` characters. -/
theorem encode_error_behavior (lat lon : ℚ) (p : Int) :
    (encode lat lon p = none ↔ p < 1 ∨ 12 < p) ∧
    (∀ s, encode lat lon p = some s → (s.length : Int) = p) := by
  constructor
  · unfold encode
    by_cases h : p < 1 ∨ p > 12
    · rw [if_pos h]
      constructor
      · intro _
        omega
      · intro _
        rfl
    · rw [if_neg h]
      constructor
      · intro hx
        cases hx
      · intro hp
        exact absurd hp (by omega)
  · intro s hs
    unfold encode at hs
    by_cases h : p < 1 ∨ p > 12
    · rw [if_pos h] at hs
      cases hs
    · rw [if_neg h] at hs
      injection hs with hs
      subst hs
      rw [encodeChars_length]
      omega

/-- Witness for C4: `encode(200, 300, 0)` fails on precision while the
out-of-range coordinates `(200, 300)` with precision 5 produce the 5-character
string `"zzzzz"`. -/
theorem encode_error_behavior_witness :
    encode 200 300 0 = none ∧ (("zzzzz".toList).length : Int) = 5 :=
  ⟨(encode_error_behavior 200 300 0).1.mpr (by norm_num),
   (encode_error_behavior 200 300 5).2 "zzzzz".toList encode_far_north_east_five⟩

/-- C5: Alphabet closure — `get_bounds` fails exactly when the lowercased
input contains a character outside the 32-symbol alphabet, and `decode`,
`get_polygon` and `get_geojson` fail exactly when `get_bounds` does. -/
theorem alphabet_closure (g : List Char) :
    (get_bounds g = none ↔ ∃ c ∈ g.map Char.toLower, c ∉ geohash_base32) ∧
    (decode g = none ↔ get_bounds g = none) ∧
    (get_polygon g = none ↔ get_bounds g = none) ∧
    (∀ properties, get_geojson g properties = none ↔ get_bounds g = none) :=
  ⟨get_bounds_none_iff g, decode_none_iff g, get_polygon_none_iff g,
   fun properties => get_geojson_none_iff g properties⟩

/-- Witness for C5: the excluded letter `'a'` is rejected by `get_bounds`. -/
theorem alphabet_closure_witness : get_bounds ['a'] = none :=
  (alphabet_closure ['a']).1.mpr ⟨'a', by decide, by decide⟩

/-- C6: Decode is the midpoint of bounds — whenever `get_bounds g` returns a
box, `decode g` returns exactly the arithmetic midpoints of its two axes, in
`(latitude, longitude)` order. -/
theorem decode_is_midpoint (g : List Char) (bb : BBox) (h : get_bounds g = some bb) :
    decode g = some ((bb.sw.lat + bb.ne.lat) / 2, (bb.sw.lon + bb.ne.lon) / 2) := by
  unfold decode
  rw [h]

/-- Witness for C6 at `g = "0"`. -/
theorem decode_is_midpoint_witness :
    decode ['0'] = some (((-90) + (-45)) / 2, ((-180) + (-135)) / 2) :=
  decode_is_midpoint ['0'] ⟨⟨-90, -180⟩, ⟨-45, -135⟩⟩ get_bounds_zero_eval

/-- C7: Known test vector — `encode(57.64911, 10.40744, 6)` returns exactly
`"u4pruy"`. The two arguments are the exact rational values of the float64
numbers nearest the decimal literals `57.64911` and `10.40744`
(`8113390947320023 / 2^47` and `5858867863235099 / 2^49`). -/
theorem known_vector :
    encode (8113390947320023 / 140737488355328) (5858867863235099 / 562949953421312) 6 =
      some "u4pruy".toList := by
  norm_num [encode, encodeChars, encodeSteps, encodeBit, initBox,
    show geohash_base32[26]?.getD ' ' = 'u' from by decide,
    show geohash_base32[4]?.getD ' ' = '4' from by decide,
    show geohash_base32[21]?.getD ' ' = 'p' from by decide,
    show geohash_base32[23]?.getD ' ' = 'r' from by decide,
    show geohash_base32[30]?.getD ' ' = 'y' from by decide]

/-- C8: Polygon ring shape — whenever `get_bounds g` returns a box,
`get_polygon g` returns exactly the five `[longitude, latitude]` vertices
SW, NW, NE, SE, SW of that box: a closed ring of length 5 whose first vertex
equals its last. -/
theorem polygon_ring (g : List Char) (bb : BBox) (h : get_bounds g = some bb) :
    get_polygon g = some [(bb.sw.lon, bb.sw.lat), (bb.sw.lon, bb.ne.lat),
      (bb.ne.lon, bb.ne.lat), (bb.ne.lon, bb.sw.lat), (bb.sw.lon, bb.sw.lat)] ∧
    (∀ l, get_polygon g = some l → l.length = 5 ∧ l.head? = l.getLast?) := by
  have hpoly : get_polygon g = some [(bb.sw.lon, bb.sw.lat), (bb.sw.lon, bb.ne.lat),
      (bb.ne.lon, bb.ne.lat), (bb.ne.lon, bb.sw.lat), (bb.sw.lon, bb.sw.lat)] := by
    unfold get_polygon
    rw [h]
  refine ⟨hpoly, ?_⟩
  intro l hl
  rw [hpoly] at hl
  injection hl with hl
  subst hl
  exact ⟨rfl, rfl⟩

/-- Witness for C8 at `g = "z"`. -/
theorem polygon_ring_witness :
    get_polygon ['z'] = some [(135, 45), (135, 90), (180, 90), (180, 45), (135, 45)] ∧
    (∀ l, get_polygon ['z'] = some l → l.length = 5 ∧ l.head? = l.getLast?) :=
  polygon_ring ['z'] ⟨⟨45, 135⟩, ⟨90, 180⟩⟩ get_bounds_z_eval

/-- C9: Bounding-box invariant — a single bisection step of `get_bounds`
preserves the invariant that the four range variables are ordered and lie in
`[-90, 90] × [-180, 180]`, and every box returned by `get_bounds` satisfies
`sw.lat ≤ ne.lat`, `sw.lon ≤ ne.lon` within the globe. -/
theorem bounding_box_invariant :
    (∀ (e : Bool) (b : Box) (bitN : Bool), boxInv b → boxInv (boundsStep e b bitN)) ∧
    (∀ (g : List Char) (bb : BBox), get_bounds g = some bb →
      bb.sw.lat ≤ bb.ne.lat ∧ bb.sw.lon ≤ bb.ne.lon ∧
      -90 ≤ bb.sw.lat ∧ bb.ne.lat ≤ 90 ∧ -180 ≤ bb.sw.lon ∧ bb.ne.lon ≤ 180) := by
  constructor
  · exact fun e b bitN h => boundsStep_boxInv e b bitN h
  · intro g bb h
    unfold get_bounds at h
    rcases hloop : boundsLoop (initBox, true) (g.map Char.toLower) with _ | ⟨b, e⟩ <;>
      rw [hloop] at h
    · cases h
    · cases h
      have hinv : boxInv b := boundsLoop_boxInv _ _ _ hloop initBox_boxInv
      exact ⟨hinv.2.1, hinv.2.2.2.2.1, hinv.1, hinv.2.2.1, hinv.2.2.2.1, hinv.2.2.2.2.2⟩

/-- Witness for C9: one step on the initial box, and the box of `"0"`. -/
theorem bounding_box_invariant_witness :
    boxInv (boundsStep true initBox true) ∧
    ((-90 : ℚ) ≤ -45 ∧ (-180 : ℚ) ≤ -135 ∧ (-90 : ℚ) ≤ -90 ∧
     (-45 : ℚ) ≤ 90 ∧ (-180 : ℚ) ≤ -180 ∧ (-135 : ℚ) ≤ 180) :=
  ⟨bounding_box_invariant.1 true initBox true initBox_boxInv,
   bounding_box_invariant.2 ['0'] ⟨⟨-90, -180⟩, ⟨-45, -135⟩⟩ get_bounds_zero_eval⟩

/-- C10: Encode output is always a valid geohash — the 5-bit accumulator is
below 32 at every character-emission point (it accumulates five bits starting
from 0), every character of any string returned by `encode` is drawn from the
alphabet, and `get_bounds` and `decode` accept every such string. -/
theorem encode_output_valid :
    (∀ (lat lon : ℚ) (e : Bool) (b : Box), (encodeSteps lat lon 5 (0, e, b)).1 < 32) ∧
    (∀ (lat lon : ℚ) (p : Int) (s : List Char), encode lat lon p = some s →
      (∀ c ∈ s, c ∈ geohash_base32) ∧ (get_bounds s).isSome ∧ (decode s).isSome) := by
  constructor
  · exact fun lat lon e b => encodeSteps_index_lt lat lon e b
  · intro lat lon p s hs
    unfold encode at hs
    by_cases h : p < 1 ∨ p > 12
    · rw [if_pos h] at hs
      cases hs
    · rw [if_neg h] at hs
      injection hs with hs
      subst hs
      have hmem : ∀ c ∈ (encodeChars lat lon p.toNat true initBox).1, c ∈ geohash_base32 :=
        fun c hc => encodeChars_mem lat lon _ _ _ c hc
      have hgb : ¬get_bounds (encodeChars lat lon p.toNat true initBox).1 = none := by
        rw [get_bounds_none_iff]
        rintro ⟨c, hc1, hc2⟩
        obtain ⟨c2, hc2mem, rfl⟩ := List.mem_map.mp hc1
        rw [alphabet_toLower c2 (hmem c2 hc2mem)] at hc2
        exact hc2 (hmem c2 hc2mem)
      have hdec : ¬decode (encodeChars lat lon p.toNat true initBox).1 = none := by
        rw [decode_none_iff]
        exact hgb
      exact ⟨hmem, Option.isSome_iff_ne_none.mpr hgb, Option.isSome_iff_ne_none.mpr hdec⟩

/-- Witness for C10: the accumulator bound at `(0, 0)` on the initial box,
and the output of `encode(200, 300, 1)`. -/
theorem encode_output_valid_witness :
    (encodeSteps 0 0 5 (0, true, initBox)).1 < 32 ∧
    ((∀ c ∈ ['z'], c ∈ geohash_base32) ∧
     (get_bounds ['z']).isSome ∧ (decode ['z']).isSome) :=
  ⟨encode_output_valid.1 0 0 true initBox,
   encode_output_valid.2 200 300 1 ['z'] encode_far_north_east_one⟩

end Dstkit
